import Mathlib

/-!
Shallow embedding of the FinanceAnalyst scanner core (Go) in Lean 4.

Modelling conventions:
* `float64` values are modelled as `ℚ`; `math.Sqrt`, the only irrational
  operation, is passed in as an explicit function parameter (no verified
  property depends on its values).
* `time.Time` is modelled as Unix seconds (`Int`); `t.Before u` is `t < u`,
  `t.Equal u` is `t = u`, `AddDate(0,0,k)` adds `k` days of seconds.
* Goroutine pools are flattened to sequential folds over tickers/offsets:
  every worker writes to one mutex-protected list, so the set of collected
  matches is the same.
* The candle fetcher is a function `String → Int → Int → Option (List Candle)`;
  `none` models a fetch error (scanners skip the ticker in that case).
* A nil pointer receiver/argument is modelled with `Option`.
-/

/-- One OHLC bar (Go struct `models.Candle`), `Date` as Unix seconds. -/
structure Candle where
  Date : Int
  Open : ℚ
  High : ℚ
  Low : ℚ
  Close : ℚ
  deriving Repr, DecidableEq

/-- A contiguous slice of a time series (Go struct `models.ChartSegment`). -/
structure ChartSegment where
  Ticker : String
  From : Int
  To : Int
  Candles : List Candle
  deriving Repr, DecidableEq

/-- Segment overlap predicate: embeds both `chart.isOverlap`
(`services/scanner/internal/services/scanner/chart/scanner.go`) and
`candle.IsOverlap` (`services/scanner/internal/candle/scanner.go`), which are
textually identical. -/
def isOverlap (seg1 seg2 : ChartSegment) : Bool :=
  if seg1.Ticker ≠ seg2.Ticker then false
  else
    !(decide (seg1.To < seg2.From) || decide (seg1.To = seg2.From) ||
      decide (seg2.To < seg1.From) || decide (seg2.To = seg1.From))

/-- Candle scan options (Go struct `candle.ScanOptions`). -/
structure CandleScanOptions where
  TailLen : Int
  BodyTolerance : ℚ
  ShadowTolerance : ℚ
  deriving Repr, DecidableEq

/-- Go method `(*ScanOptions).withDefaults` of the candle scanner (identical
to `WithDefaults` in the candle models package); `none` models a nil
receiver. -/
def CandleScanOptions.withDefaults (o : Option CandleScanOptions) : CandleScanOptions :=
  match o with
  | none => ⟨0, 1/10, 1/10⟩
  | some o =>
    { TailLen := if o.TailLen > 0 then o.TailLen else 0
      BodyTolerance := if o.BodyTolerance > 0 then o.BodyTolerance else 1/10
      ShadowTolerance := if o.ShadowTolerance > 0 then o.ShadowTolerance else 1/10 }

/-- Chart scan options (Go struct `chart/models.ScanOptions`). -/
structure ChartScanOptions where
  MinScale : ℚ
  MaxScale : ℚ
  Tolerance : ℚ
  deriving Repr, DecidableEq

/-- Go method `(*ScanOptions).WithDefaults` of the chart models package;
`none` models a nil receiver. -/
def ChartScanOptions.WithDefaults (o : Option ChartScanOptions) : ChartScanOptions :=
  match o with
  | none => ⟨3/4, 3/2, 1/10⟩
  | some o =>
    { MinScale := if o.MinScale > 0 then o.MinScale else 3/4
      MaxScale := if o.MaxScale > 0 then o.MaxScale else 3/2
      Tolerance := if o.Tolerance > 0 ∧ o.Tolerance ≤ 1 then o.Tolerance else 1/10 }

/-- C4: the segment-overlap predicate is symmetric; it is reflexive on
same-ticker segments with a non-empty time range (`From < To`); it returns
false whenever the tickers differ, and false whenever the segments strictly
touch at a boundary (`a.To = b.From` or `b.To = a.From`). -/
theorem isOverlap_props :
    (∀ a b : ChartSegment, isOverlap a b = isOverlap b a) ∧
    (∀ a : ChartSegment, a.From < a.To → isOverlap a a = true) ∧
    (∀ a b : ChartSegment, a.Ticker ≠ b.Ticker → isOverlap a b = false) ∧
    (∀ a b : ChartSegment, a.To = b.From ∨ b.To = a.From → isOverlap a b = false) := by
  refine ⟨?_, ?_, ?_, ?_⟩
  · intro a b
    simp only [isOverlap]
    by_cases h : a.Ticker = b.Ticker
    · simp only [h, ne_eq, not_true_eq_false, if_false]
      by_cases h1 : a.To < b.From <;> by_cases h2 : a.To = b.From <;>
        by_cases h3 : b.To < a.From <;> by_cases h4 : b.To = a.From <;>
        simp [h1, h2, h3, h4, eq_comm, h.symm]
    · simp [h, Ne.symm h]
  · intro a h
    simp only [isOverlap, ne_eq, not_true_eq_false, if_false]
    have h1 : ¬ a.To < a.From := by omega
    have h2 : ¬ a.To = a.From := by omega
    simp [h1, h2]
  · intro a b h
    simp [isOverlap, h]
  · intro a b h
    simp only [isOverlap]
    by_cases ht : a.Ticker = b.Ticker
    · rcases h with h | h <;> simp [ht, h]
    · simp [ht]

/-- C4 witness: concrete instances of each hypothesis-bearing part. -/
theorem isOverlap_props_witness :
    isOverlap ⟨"A", 1, 3, []⟩ ⟨"A", 1, 3, []⟩ = true ∧
    isOverlap ⟨"A", 1, 3, []⟩ ⟨"B", 1, 3, []⟩ = false ∧
    isOverlap ⟨"A", 1, 3, []⟩ ⟨"A", 3, 5, []⟩ = false :=
  ⟨isOverlap_props.2.1 ⟨"A", 1, 3, []⟩ (by decide),
   isOverlap_props.2.2.1 ⟨"A", 1, 3, []⟩ ⟨"B", 1, 3, []⟩ (by decide),
   isOverlap_props.2.2.2 ⟨"A", 1, 3, []⟩ ⟨"A", 3, 5, []⟩ (Or.inl rfl)⟩

/-- C9: option sanitization is total and always lands in the documented
ranges; any out-of-range supplied value is silently replaced by its
default. -/
theorem withDefaults_sanitizes :
    (∀ o : Option CandleScanOptions,
      0 ≤ (CandleScanOptions.withDefaults o).TailLen ∧
      0 < (CandleScanOptions.withDefaults o).BodyTolerance ∧
      0 < (CandleScanOptions.withDefaults o).ShadowTolerance) ∧
    (∀ o : Option ChartScanOptions,
      0 < (ChartScanOptions.WithDefaults o).MinScale ∧
      0 < (ChartScanOptions.WithDefaults o).MaxScale ∧
      0 < (ChartScanOptions.WithDefaults o).Tolerance ∧
      (ChartScanOptions.WithDefaults o).Tolerance ≤ 1) ∧
    (∀ o : CandleScanOptions,
      (o.TailLen ≤ 0 → (CandleScanOptions.withDefaults (some o)).TailLen = 0) ∧
      (o.BodyTolerance ≤ 0 →
        (CandleScanOptions.withDefaults (some o)).BodyTolerance = 1/10) ∧
      (o.ShadowTolerance ≤ 0 →
        (CandleScanOptions.withDefaults (some o)).ShadowTolerance = 1/10)) ∧
    (∀ o : ChartScanOptions,
      (o.MinScale ≤ 0 → (ChartScanOptions.WithDefaults (some o)).MinScale = 3/4) ∧
      (o.MaxScale ≤ 0 → (ChartScanOptions.WithDefaults (some o)).MaxScale = 3/2) ∧
      (o.Tolerance ≤ 0 ∨ 1 < o.Tolerance →
        (ChartScanOptions.WithDefaults (some o)).Tolerance = 1/10)) ∧
    CandleScanOptions.withDefaults none = ⟨0, 1/10, 1/10⟩ ∧
    ChartScanOptions.WithDefaults none = ⟨3/4, 3/2, 1/10⟩ := by
  refine ⟨?_, ?_, ?_, ?_, rfl, rfl⟩
  · rintro (_ | o)
    · refine ⟨?_, ?_, ?_⟩ <;> norm_num [CandleScanOptions.withDefaults]
    · refine ⟨?_, ?_, ?_⟩
      · simp only [CandleScanOptions.withDefaults]
        split
        · omega
        · norm_num
      · simp only [CandleScanOptions.withDefaults]
        split
        · assumption
        · norm_num
      · simp only [CandleScanOptions.withDefaults]
        split
        · assumption
        · norm_num
  · rintro (_ | o)
    · refine ⟨?_, ?_, ?_, ?_⟩ <;> norm_num [ChartScanOptions.WithDefaults]
    · refine ⟨?_, ?_, ?_, ?_⟩
      · simp only [ChartScanOptions.WithDefaults]
        split
        · assumption
        · norm_num
      · simp only [ChartScanOptions.WithDefaults]
        split
        · assumption
        · norm_num
      · simp only [ChartScanOptions.WithDefaults]
        split
        · rename_i h
          exact h.1
        · norm_num
      · simp only [ChartScanOptions.WithDefaults]
        split
        · rename_i h
          exact h.2
        · norm_num
  · intro o
    refine ⟨?_, ?_, ?_⟩ <;> intro h <;> simp only [CandleScanOptions.withDefaults] <;>
      rw [if_neg (by exact not_lt.mpr h)]
  · intro o
    refine ⟨?_, ?_, ?_⟩
    · intro h
      simp only [ChartScanOptions.WithDefaults]
      rw [if_neg (by exact not_lt.mpr h)]
    · intro h
      simp only [ChartScanOptions.WithDefaults]
      rw [if_neg (by exact not_lt.mpr h)]
    · intro h
      simp only [ChartScanOptions.WithDefaults]
      rw [if_neg]
      rintro ⟨h1, h2⟩
      rcases h with h | h
      · exact absurd h1 (not_lt.mpr h)
      · exact absurd h2 (not_le.mpr h)

/-- C9 witness: out-of-range supplied options are replaced by defaults. -/
theorem withDefaults_sanitizes_witness :
    (CandleScanOptions.withDefaults (some ⟨-3, -1, 0⟩)).BodyTolerance = 1/10 ∧
    (ChartScanOptions.WithDefaults (some ⟨0, 2, 7⟩)).Tolerance = 1/10 :=
  ⟨(withDefaults_sanitizes.2.2.1 ⟨-3, -1, 0⟩).2.1 (by norm_num),
   (withDefaults_sanitizes.2.2.2.1 ⟨0, 2, 7⟩).2.2 (Or.inr (by norm_num))⟩

/-! ## Numerics utilities (`services/scanner/pkg/utils/dtw.go`) -/

/-- Go `utils.ZNormalize`. `math.Sqrt` is modelled by the explicit parameter
`sqrtFn`; no verified claim depends on the numeric value of the standard
deviation. -/
def ZNormalize (sqrtFn : ℚ → ℚ) (data : List ℚ) : List ℚ :=
  if data.length = 0 then []
  else
    let mean := data.sum / (data.length : ℚ)
    let variance := (data.map (fun v => (v - mean) * (v - mean))).sum / (data.length : ℚ)
    let stddev := sqrtFn variance
    if stddev = 0 then List.replicate data.length 0
    else data.map (fun v => (v - mean) / stddev)

/-- Go `utils.Resample`: piecewise-linear interpolation to `targetLen`
samples. -/
def Resample (data : List ℚ) (targetLen : Nat) : List ℚ :=
  let m := data.length
  if m = 0 ∨ targetLen < 1 then []
  else if targetLen = 1 then [data.sum / (m : ℚ)]
  else
    let scale : ℚ := ((m : ℚ) - 1) / ((targetLen : ℚ) - 1)
    (List.range targetLen).map (fun i =>
      let pos := scale * (i : ℚ)
      let idx : Int := ⌊pos⌋
      if (m : Int) - 1 ≤ idx then data.getD (m - 1) 0
      else
        let frac := pos - (idx : ℚ)
        data.getD idx.toNat 0 + (data.getD (idx.toNat + 1) 0 - data.getD idx.toNat 0) * frac)

/-- Window size used by `utils.LbKeoghEnvelope`:
`int(math.Floor(float64(resampleLen) * (1 - 0.9)))`. -/
def lbKeoghWindow (resampleLen : Nat) : Nat :=
  (⌊(resampleLen : ℚ) * (1 - 9/10)⌋).toNat

/-- One iteration of the `utils.LbKeoghEnvelope` outer loop: running min/max
of `s` over `j ∈ [max 0 (i-window), min n (i+window))`, both started at
`s[i]`. -/
def envelopeCell (s : List ℚ) (window i : Nat) : ℚ × ℚ :=
  (List.range' (i - window) (min s.length (i + window) - (i - window))).foldl
    (fun p j =>
      let v := s.getD j 0
      (if v < p.1 then v else p.1, if v > p.2 then v else p.2))
    (s.getD i 0, s.getD i 0)

/-- Go `utils.LbKeoghEnvelope`. -/
def LbKeoghEnvelope (s : List ℚ) (resampleLen : Nat) : List ℚ × List ℚ :=
  ((List.range s.length).map fun i => (envelopeCell s (lbKeoghWindow resampleLen) i).1,
   (List.range s.length).map fun i => (envelopeCell s (lbKeoghWindow resampleLen) i).2)

/-- Go `utils.LbKeoghDistance`: square root of the summed squared excursions
of `target` outside the `[lower, upper]` envelope, loop bounded by
`candidate`'s length. -/
def LbKeoghDistance (sqrtFn : ℚ → ℚ) (candidate lower upper target : List ℚ) : ℚ :=
  sqrtFn (((List.range candidate.length).map (fun i =>
    if target.getD i 0 > upper.getD i 0 then
      (target.getD i 0 - upper.getD i 0) * (target.getD i 0 - upper.getD i 0)
    else if target.getD i 0 < lower.getD i 0 then
      (lower.getD i 0 - target.getD i 0) * (lower.getD i 0 - target.getD i 0)
    else 0)).sum)

theorem lbKeoghWindow_eq (resampleLen : Nat) : lbKeoghWindow resampleLen = resampleLen / 10 := by
  unfold lbKeoghWindow
  have h1 : ((resampleLen : ℚ)) * (1 - 9/10) = ((resampleLen : ℤ) : ℚ) / ((10 : ℕ) : ℚ) := by
    push_cast
    ring
  rw [h1, Rat.floor_intCast_div_natCast]
  omega

theorem map_range_getD (s : List ℚ) :
    ((List.range s.length).map fun i => s.getD i 0) = s := by
  apply List.ext_getElem
  · simp
  · intro i h1 h2
    simp [List.getD_eq_getElem?_getD, List.getElem?_eq_getElem h2]

theorem if_min_le_left (v a : ℚ) : (if v < a then v else a) ≤ a := by
  split
  · exact le_of_lt (by assumption)
  · exact le_refl a

theorem if_min_le_right (v a : ℚ) : (if v < a then v else a) ≤ v := by
  split
  · exact le_refl v
  · exact not_lt.mp (by assumption)

theorem le_if_max_left (v b : ℚ) : b ≤ (if v > b then v else b) := by
  split
  · exact le_of_lt (by assumption)
  · exact le_refl b

theorem le_if_max_right (v b : ℚ) : v ≤ (if v > b then v else b) := by
  split
  · exact le_refl v
  · exact not_lt.mp (by assumption)

/-- Characterization of the running min/max fold used by the envelope. -/
theorem foldl_minmax_char (l : List ℚ) (a b : ℚ) :
    ((l.foldl (fun p v => (if v < p.1 then v else p.1, if v > p.2 then v else p.2))
        (a, b)).1 = a ∨
     (l.foldl (fun p v => (if v < p.1 then v else p.1, if v > p.2 then v else p.2))
        (a, b)).1 ∈ l) ∧
    (l.foldl (fun p v => (if v < p.1 then v else p.1, if v > p.2 then v else p.2))
        (a, b)).1 ≤ a ∧
    (∀ x ∈ l, (l.foldl (fun p v => (if v < p.1 then v else p.1, if v > p.2 then v else p.2))
        (a, b)).1 ≤ x) ∧
    ((l.foldl (fun p v => (if v < p.1 then v else p.1, if v > p.2 then v else p.2))
        (a, b)).2 = b ∨
     (l.foldl (fun p v => (if v < p.1 then v else p.1, if v > p.2 then v else p.2))
        (a, b)).2 ∈ l) ∧
    b ≤ (l.foldl (fun p v => (if v < p.1 then v else p.1, if v > p.2 then v else p.2))
        (a, b)).2 ∧
    (∀ x ∈ l, x ≤ (l.foldl (fun p v => (if v < p.1 then v else p.1, if v > p.2 then v else p.2))
        (a, b)).2) := by
  induction l generalizing a b with
  | nil => simp
  | cons v t ih =>
    simp only [List.foldl_cons, List.mem_cons]
    obtain ⟨ih1, ih2, ih3, ih4, ih5, ih6⟩ :=
      ih (if v < a then v else a) (if v > b then v else b)
    constructor
    · rcases ih1 with h | h
      · rw [h]
        split
        · exact Or.inr (Or.inl rfl)
        · exact Or.inl rfl
      · exact Or.inr (Or.inr h)
    refine ⟨?_, ?_, ?_, ?_, ?_⟩
    · exact le_trans ih2 (if_min_le_left v a)
    · intro x hx
      rcases hx with rfl | hx
      · exact le_trans ih2 (if_min_le_right x a)
      · exact ih3 x hx
    · rcases ih4 with h | h
      · rw [h]
        split
        · exact Or.inr (Or.inl rfl)
        · exact Or.inl rfl
      · exact Or.inr (Or.inr h)
    · exact le_trans (le_if_max_left v b) ih5
    · intro x hx
      rcases hx with rfl | hx
      · exact le_trans (le_if_max_right x b) ih5
      · exact ih6 x hx

theorem envelope_getD (s : List ℚ) (resampleLen i : Nat) (h : i < s.length) :
    (LbKeoghEnvelope s resampleLen).1.getD i 0 =
      (envelopeCell s (lbKeoghWindow resampleLen) i).1 ∧
    (LbKeoghEnvelope s resampleLen).2.getD i 0 =
      (envelopeCell s (lbKeoghWindow resampleLen) i).2 := by
  constructor <;>
    simp [LbKeoghEnvelope, List.getD_eq_getElem?_getD, List.getElem?_map,
      List.getElem?_range, h]

/-- C5: for every seed slice of length `n` and every `resampleLen`,
`LbKeoghEnvelope` returns lower and upper slices of length `n` computed with
window `w = ⌊resampleLen · 0.1⌋`; when `w = 0` both envelopes equal the
input, and when `w > 0`, `lower[i]`/`upper[i]` are the minimum/maximum of the
seed over the index range `[max 0 (i-w), min n (i+w))` (exclusive upper
bound). -/
theorem LbKeoghEnvelope_spec (s : List ℚ) (resampleLen : Nat) :
    (LbKeoghEnvelope s resampleLen).1.length = s.length ∧
    (LbKeoghEnvelope s resampleLen).2.length = s.length ∧
    lbKeoghWindow resampleLen = resampleLen / 10 ∧
    (resampleLen / 10 = 0 →
      (LbKeoghEnvelope s resampleLen).1 = s ∧ (LbKeoghEnvelope s resampleLen).2 = s) ∧
    (0 < resampleLen / 10 → ∀ i, i < s.length →
      (∀ j, i - resampleLen / 10 ≤ j → j < min s.length (i + resampleLen / 10) →
        (LbKeoghEnvelope s resampleLen).1.getD i 0 ≤ s.getD j 0 ∧
        s.getD j 0 ≤ (LbKeoghEnvelope s resampleLen).2.getD i 0) ∧
      (∃ j, i - resampleLen / 10 ≤ j ∧ j < min s.length (i + resampleLen / 10) ∧
        (LbKeoghEnvelope s resampleLen).1.getD i 0 = s.getD j 0) ∧
      (∃ j, i - resampleLen / 10 ≤ j ∧ j < min s.length (i + resampleLen / 10) ∧
        (LbKeoghEnvelope s resampleLen).2.getD i 0 = s.getD j 0)) := by
  have hw := lbKeoghWindow_eq resampleLen
  refine ⟨by simp [LbKeoghEnvelope], by simp [LbKeoghEnvelope], hw, ?_, ?_⟩
  · intro h0
    have hcell : ∀ i, i < s.length →
        envelopeCell s (lbKeoghWindow resampleLen) i = (s.getD i 0, s.getD i 0) := by
      intro i hi
      rw [hw, h0]
      have : min s.length (i + 0) - (i - 0) = 0 := by omega
      simp [envelopeCell, this]
    constructor <;>
      · simp only [LbKeoghEnvelope]
        apply List.ext_getElem
        · simp
        · intro i h1 h2
          simp only [List.getElem_map, List.getElem_range]
          rw [hcell i h2]
          simp [List.getD_eq_getElem?_getD, List.getElem?_eq_getElem h2]
  · intro hpos i hi
    obtain ⟨hg1, hg2⟩ := envelope_getD s resampleLen i hi
    rw [hg1, hg2]
    set w := lbKeoghWindow resampleLen with hwdef
    rw [hw] at hwdef
    set lo := i - w with hlo
    set cnt := min s.length (i + w) - (i - w) with hcnt
    have hfold :
        envelopeCell s w i =
          ((List.range' lo cnt).map (fun j => s.getD j 0)).foldl
            (fun p v => (if v < p.1 then v else p.1, if v > p.2 then v else p.2))
            (s.getD i 0, s.getD i 0) := by
      rw [List.foldl_map]
      rfl
    have hchar := foldl_minmax_char ((List.range' lo cnt).map (fun j => s.getD j 0))
      (s.getD i 0) (s.getD i 0)
    rw [← hfold] at hchar
    obtain ⟨hc1, _hc2, hc3, hc4, _hc5, hc6⟩ := hchar
    have hmemrange : ∀ j : Nat, (lo ≤ j ∧ j < lo + cnt) ↔
        (i - resampleLen / 10 ≤ j ∧ j < min s.length (i + resampleLen / 10)) := by
      intro j
      rw [hlo, hcnt, hwdef]
      omega
    have hmem : ∀ x, x ∈ (List.range' lo cnt).map (fun j => s.getD j 0) ↔
        ∃ j, i - resampleLen / 10 ≤ j ∧ j < min s.length (i + resampleLen / 10) ∧
          x = s.getD j 0 := by
      intro x
      simp only [List.mem_map, List.mem_range'_1]
      constructor
      · rintro ⟨j, hj, rfl⟩
        exact ⟨j, ((hmemrange j).mp hj).1, ((hmemrange j).mp hj).2, rfl⟩
      · rintro ⟨j, h1, h2, rfl⟩
        exact ⟨j, (hmemrange j).mpr ⟨h1, h2⟩, rfl⟩
    have hself : s.getD i 0 ∈ (List.range' lo cnt).map (fun j => s.getD j 0) := by
      rw [hmem]
      refine ⟨i, ?_, ?_, rfl⟩ <;> rw [hwdef] at hpos ⊢ <;> omega
    refine ⟨?_, ?_, ?_⟩
    · intro j hj1 hj2
      have hx : s.getD j 0 ∈ (List.range' lo cnt).map (fun j => s.getD j 0) := by
        rw [hmem]
        exact ⟨j, hj1, hj2, rfl⟩
      exact ⟨hc3 _ hx, hc6 _ hx⟩
    · have hin : (envelopeCell s w i).1 ∈ (List.range' lo cnt).map (fun j => s.getD j 0) := by
        rcases hc1 with h | h
        · rw [h]; exact hself
        · exact h
      rw [hmem] at hin
      obtain ⟨j, h1, h2, h3⟩ := hin
      exact ⟨j, h1, h2, h3⟩
    · have hin : (envelopeCell s w i).2 ∈ (List.range' lo cnt).map (fun j => s.getD j 0) := by
        rcases hc4 with h | h
        · rw [h]; exact hself
        · exact h
      rw [hmem] at hin
      obtain ⟨j, h1, h2, h3⟩ := hin
      exact ⟨j, h1, h2, h3⟩

/-- C5 witness: a concrete envelope computation with `w = 1` and one with
`w = 0`. -/
theorem LbKeoghEnvelope_spec_witness :
    (LbKeoghEnvelope [3, 1, 2] 10).1.getD 0 0 ≤ (3 : ℚ) ∧
    (LbKeoghEnvelope [5, 7] 3).1 = [5, 7] := by
  constructor
  · exact ((((LbKeoghEnvelope_spec [3, 1, 2] 10).2.2.2.2 (by decide) 0
      (by decide)).1) 0 (by decide) (by decide)).1
  · exact ((LbKeoghEnvelope_spec [5, 7] 3).2.2.2.1 (by decide)).1

/-- The large sentinel `inf = 1e9` used by `utils.DTW`. -/
def dtwInf : ℚ := 1000000000

/-- Inner loop of a `utils.DTW` row: given the current row element `ai`, the
remaining `b` suffix, the matching suffix of the previous row (whose head is
`prev[j-1]`), and `cur[j-1]`, produce the cells `cur[1..]`. -/
def dtwRowCells (ai : ℚ) : List ℚ → List ℚ → ℚ → List ℚ
  | [], _, _ => []
  | _ :: _, [], _ => []
  | bj :: bs, pj1 :: ptail, curj1 =>
    let cost := |ai - bj|
    let c := cost + min (ptail.headD dtwInf) (min pj1 curj1)
    c :: dtwRowCells ai bs ptail c

/-- Outer loop of `utils.DTW`: one iteration per element of `a`, rolling the
`prev` row; `none` models the early-abandon `return -1`. -/
def dtwLoop (b : List ℚ) (maxCost : ℚ) : List ℚ → List ℚ → Option (List ℚ)
  | prev, [] => some prev
  | prev, ai :: arest =>
    let curTail := dtwRowCells ai b prev dtwInf
    if curTail.foldl min dtwInf > maxCost then none
    else dtwLoop b maxCost (dtwInf :: curTail) arest

/-- Go `utils.DTW` with early abandon. -/
def DTW (a b : List ℚ) (maxCost : ℚ) : ℚ :=
  match dtwLoop b maxCost (0 :: List.replicate b.length dtwInf) a with
  | none => -1
  | some prev => prev.getD b.length 0

theorem headD_nonneg {l : List ℚ} {d : ℚ} (hl : ∀ x ∈ l, 0 ≤ x) (hd : 0 ≤ d) :
    0 ≤ l.headD d := by
  cases l with
  | nil => exact hd
  | cons x t => exact hl x (List.mem_cons_self x t)

theorem dtwRowCells_nonneg (ai : ℚ) :
    ∀ (b prev : List ℚ) (curj1 : ℚ), (∀ x ∈ prev, 0 ≤ x) → 0 ≤ curj1 →
      ∀ x ∈ dtwRowCells ai b prev curj1, 0 ≤ x := by
  intro b
  induction b with
  | nil => intro prev curj1 _ _ x hx; simp [dtwRowCells] at hx
  | cons bj bs ih =>
    intro prev curj1 hprev hcur x hx
    cases prev with
    | nil => simp [dtwRowCells] at hx
    | cons pj1 ptail =>
      simp only [dtwRowCells, List.mem_cons] at hx
      have hptail : ∀ y ∈ ptail, 0 ≤ y := fun y hy => hprev y (List.mem_cons_of_mem _ hy)
      have hc : 0 ≤ |ai - bj| + min (ptail.headD dtwInf) (min pj1 curj1) := by
        have h1 : 0 ≤ ptail.headD dtwInf :=
          headD_nonneg hptail (by norm_num [dtwInf])
        have h2 : 0 ≤ pj1 := hprev pj1 (List.mem_cons_self _ _)
        have := abs_nonneg (ai - bj)
        have : 0 ≤ min (ptail.headD dtwInf) (min pj1 curj1) := by
          exact le_min h1 (le_min h2 hcur)
        positivity
      rcases hx with rfl | hx
      · exact hc
      · exact ih ptail _ hptail hc x hx

theorem dtwRowCells_length (ai : ℚ) :
    ∀ (b prev : List ℚ) (curj1 : ℚ),
      (dtwRowCells ai b prev curj1).length = min b.length prev.length := by
  intro b
  induction b with
  | nil => intro prev curj1; simp [dtwRowCells]
  | cons bj bs ih =>
    intro prev curj1
    cases prev with
    | nil => simp [dtwRowCells]
    | cons pj1 ptail =>
      simp only [dtwRowCells, List.length_cons, ih]
      omega

theorem dtwLoop_nonneg (b : List ℚ) (maxCost : ℚ) :
    ∀ (a prev : List ℚ), (∀ x ∈ prev, 0 ≤ x) →
      ∀ out, dtwLoop b maxCost prev a = some out → ∀ x ∈ out, 0 ≤ x := by
  intro a
  induction a with
  | nil =>
    intro prev hprev out hout
    simp only [dtwLoop, Option.some.injEq] at hout
    exact hout ▸ hprev
  | cons ai arest ih =>
    intro prev hprev out hout
    simp only [dtwLoop] at hout
    split at hout
    · exact absurd hout (by simp)
    · refine ih (dtwInf :: dtwRowCells ai b prev dtwInf) ?_ out hout
      intro x hx
      rcases List.mem_cons.mp hx with rfl | hx
      · norm_num [dtwInf]
      · exact dtwRowCells_nonneg ai b prev dtwInf hprev (by norm_num [dtwInf]) x hx

theorem foldl_min_le (l : List ℚ) (a : ℚ) :
    l.foldl min a ≤ a ∧ ∀ x ∈ l, l.foldl min a ≤ x := by
  induction l generalizing a with
  | nil => simp
  | cons v t ih =>
    simp only [List.foldl_cons, List.mem_cons]
    obtain ⟨ih1, ih2⟩ := ih (min a v)
    refine ⟨le_trans ih1 (min_le_left a v), ?_⟩
    intro x hx
    rcases hx with rfl | hx
    · exact le_trans ih1 (min_le_right a x)
    · exact ih2 x hx

theorem getD_append_cons (p1 : List ℚ) (x : ℚ) (p2 : List ℚ) (d : ℚ) :
    (p1 ++ x :: p2).getD p1.length d = x := by
  induction p1 with
  | nil => rfl
  | cons y t ih => simpa using ih

theorem getD_nonneg {l : List ℚ} (h : ∀ x ∈ l, 0 ≤ x) (n : Nat) {d : ℚ} (hd : 0 ≤ d) :
    0 ≤ l.getD n d := by
  induction l generalizing n with
  | nil => simpa [List.getD]
  | cons x t ih =>
    cases n with
    | zero => exact h x (List.mem_cons_self _ _)
    | succ m => exact ih (fun y hy => h y (List.mem_cons_of_mem _ hy)) m

/-- When `b = a` (self comparison), the cell on the main diagonal of each DTW
row is `0`: its cost is `|ai - ai| = 0` and `prev[j-1]` on the diagonal is
`0`. -/
theorem dtwRowCells_diag (ai : ℚ) :
    ∀ (b1 p1 b2 p2 : List ℚ) (c : ℚ),
      p1.length = b1.length →
      (∀ x ∈ p1, 0 ≤ x) → (∀ x ∈ p2, 0 ≤ x) → 0 ≤ c →
      (dtwRowCells ai (b1 ++ ai :: b2) (p1 ++ 0 :: p2) c).getD b1.length 0 = 0 := by
  intro b1
  induction b1 with
  | nil =>
    intro p1 b2 p2 c hlen hp1 hp2 hc
    have hp1nil : p1 = [] := List.length_eq_zero.mp hlen
    subst hp1nil
    simp only [List.nil_append, dtwRowCells, List.length_nil, List.getD_cons_zero]
    have h1 : |ai - ai| = 0 := by simp
    have h2 : min (p2.headD dtwInf) (min 0 c) = 0 := by
      have hh : 0 ≤ p2.headD dtwInf := headD_nonneg hp2 (by norm_num [dtwInf])
      have h0c : min (0 : ℚ) c = 0 := min_eq_left hc
      rw [h0c]
      exact min_eq_right hh
    rw [h1, h2, zero_add]
  | cons bj b1t ih =>
    intro p1 b2 p2 c hlen hp1 hp2 hc
    cases p1 with
    | nil => simp at hlen
    | cons pj1 p1t =>
      have hlen2 : p1t.length = b1t.length := by simpa using hlen
      have hp1t : ∀ x ∈ p1t, 0 ≤ x := fun x hx => hp1 x (List.mem_cons_of_mem _ hx)
      have hpj1 : 0 ≤ pj1 := hp1 pj1 (List.mem_cons_self _ _)
      have hcat : ∀ x ∈ p1t ++ 0 :: p2, 0 ≤ x := by
        intro x hx
        rcases List.mem_append.mp hx with hx | hx
        · exact hp1t x hx
        · rcases List.mem_cons.mp hx with rfl | hx
          · exact le_rfl
          · exact hp2 x hx
      have hc0 : 0 ≤ |ai - bj| +
          min ((p1t ++ 0 :: p2).headD dtwInf) (min pj1 c) := by
        have h1 : 0 ≤ (p1t ++ 0 :: p2).headD dtwInf :=
          headD_nonneg hcat (by norm_num [dtwInf])
        have h2 : 0 ≤ min pj1 c := le_min hpj1 hc
        have h3 := abs_nonneg (ai - bj)
        have h4 : 0 ≤ min ((p1t ++ 0 :: p2).headD dtwInf) (min pj1 c) :=
          le_min h1 h2
        linarith
      simp only [List.cons_append, dtwRowCells, List.length_cons, List.getD_cons_succ]
      exact ih p1t b2 p2 _ hlen2 hp1t hp2 hc0

/-- On a self comparison, the DTW outer loop never abandons (each row min is
at most the diagonal cell `0 ≤ maxCost`) and the final row carries `0` on the
diagonal. -/
theorem dtwLoop_diag (a : List ℚ) (maxCost : ℚ) (hmc : 0 ≤ maxCost) :
    ∀ (arest p1 p2 : List ℚ),
      a.drop p1.length = arest →
      p1.length + p2.length = a.length →
      (∀ x ∈ p1, 0 ≤ x) → (∀ x ∈ p2, 0 ≤ x) →
      ∃ out, dtwLoop a maxCost (p1 ++ 0 :: p2) arest = some out ∧
        out.getD a.length 0 = 0 := by
  intro arest
  induction arest with
  | nil =>
    intro p1 p2 hdrop hlen hp1 hp2
    refine ⟨p1 ++ 0 :: p2, rfl, ?_⟩
    have hk : p1.length = a.length := by
      have hge := List.drop_eq_nil_iff.mp hdrop
      omega
    rw [← hk, getD_append_cons]
  | cons ai arest2 ih =>
    intro p1 p2 hdrop hlen hp1 hp2
    have hk : p1.length < a.length := by
      by_contra hcon
      rw [List.drop_eq_nil_of_le (by omega)] at hdrop
      exact absurd hdrop (by simp)
    have hcat : ∀ x ∈ p1 ++ 0 :: p2, 0 ≤ x := by
      intro x hx
      rcases List.mem_append.mp hx with hx | hx
      · exact hp1 x hx
      · rcases List.mem_cons.mp hx with rfl | hx
        · exact le_rfl
        · exact hp2 x hx
    have ha : a = a.take p1.length ++ ai :: arest2 := by
      conv_lhs => rw [← List.take_append_drop p1.length a]
      rw [hdrop]
    have hcells_diag :
        (dtwRowCells ai a (p1 ++ 0 :: p2) dtwInf).getD p1.length 0 = 0 := by
      conv_lhs => rw [show dtwRowCells ai a (p1 ++ 0 :: p2) dtwInf =
        dtwRowCells ai (a.take p1.length ++ ai :: arest2) (p1 ++ 0 :: p2) dtwInf by
          rw [← ha]]
      have hdiag := dtwRowCells_diag ai (a.take p1.length) p1 arest2 p2 dtwInf
        (by rw [List.length_take]; omega) hp1 hp2 (by norm_num [dtwInf])
      rwa [List.length_take, Nat.min_eq_left (by omega)] at hdiag
    have hcells_len :
        (dtwRowCells ai a (p1 ++ 0 :: p2) dtwInf).length = a.length := by
      rw [dtwRowCells_length]
      simp only [List.length_append, List.length_cons]
      omega
    have hcells_nonneg : ∀ x ∈ dtwRowCells ai a (p1 ++ 0 :: p2) dtwInf, 0 ≤ x :=
      dtwRowCells_nonneg ai a (p1 ++ 0 :: p2) dtwInf hcat (by norm_num [dtwInf])
    set cells := dtwRowCells ai a (p1 ++ 0 :: p2) dtwInf with hcellsdef
    have hklt : p1.length < cells.length := by omega
    have hmemk : cells.getD p1.length 0 ∈ cells := by
      rw [List.getD_eq_getElem?_getD, List.getElem?_eq_getElem hklt]
      exact List.getElem_mem hklt
    have hnogt : ¬ cells.foldl min dtwInf > maxCost := by
      have hle := (foldl_min_le cells dtwInf).2 _ hmemk
      rw [hcells_diag] at hle
      exact not_lt.mpr (le_trans hle hmc)
    have hsplit : dtwInf :: cells =
        (dtwInf :: cells.take p1.length) ++ 0 :: cells.drop (p1.length + 1) := by
      have := List.getElem_cons_drop cells p1.length hklt
      have hck : cells[p1.length] = 0 := by
        have := List.getD_eq_getElem?_getD cells p1.length 0
        rw [List.getElem?_eq_getElem hklt] at this
        simp only [Option.getD_some] at this
        rw [← this, hcells_diag]
      conv_lhs => rw [← List.take_append_drop p1.length cells,
        ← List.getElem_cons_drop cells p1.length hklt, hck]
      simp
    obtain ⟨out, hout, hval⟩ := ih (dtwInf :: cells.take p1.length)
      (cells.drop (p1.length + 1))
      (by
        simp only [List.length_cons, List.length_take]
        rw [show min p1.length cells.length = p1.length by omega]
        rw [← List.drop_drop]
        rw [hdrop]
        rfl)
      (by
        simp only [List.length_cons, List.length_take, List.length_drop]
        omega)
      (by
        intro x hx
        rcases List.mem_cons.mp hx with rfl | hx
        · norm_num [dtwInf]
        · exact hcells_nonneg x (List.mem_of_mem_take hx))
      (by
        intro x hx
        exact hcells_nonneg x (List.mem_of_mem_drop hx))
    refine ⟨out, ?_, hval⟩
    simp only [dtwLoop]
    rw [if_neg hnogt, ← hcellsdef, hsplit]
    exact hout

/-- C6: `DTW` returns either `-1` — exactly when the outer loop abandons
because some row minimum exceeded `maxCost` — or a non-negative cost; and
the self-distance `DTW a a maxCost` is `0` whenever `maxCost ≥ 0` (in
particular with the `∞`-like bound the callers use). -/
theorem DTW_spec :
    (∀ (a b : List ℚ) (maxCost : ℚ),
      (DTW a b maxCost = -1 ↔
        dtwLoop b maxCost (0 :: List.replicate b.length dtwInf) a = none) ∧
      (DTW a b maxCost = -1 ∨ 0 ≤ DTW a b maxCost)) ∧
    (∀ (a : List ℚ) (maxCost : ℚ), 0 ≤ maxCost → DTW a a maxCost = 0) := by
  constructor
  · intro a b maxCost
    have hinit : ∀ x ∈ (0 : ℚ) :: List.replicate b.length dtwInf, 0 ≤ x := by
      intro x hx
      rcases List.mem_cons.mp hx with rfl | hx
      · exact le_rfl
      · rw [List.eq_of_mem_replicate hx]
        norm_num [dtwInf]
    cases hloop : dtwLoop b maxCost (0 :: List.replicate b.length dtwInf) a with
    | none =>
      constructor
      · simp [DTW, hloop]
      · left
        simp [DTW, hloop]
    | some out =>
      have hout : ∀ x ∈ out, 0 ≤ x :=
        dtwLoop_nonneg b maxCost a _ hinit out hloop
      have hval : 0 ≤ out.getD b.length 0 := getD_nonneg hout b.length le_rfl
      constructor
      · constructor
        · intro h
          simp only [DTW, hloop] at h
          exact absurd h (by intro hcon; rw [hcon] at hval; norm_num at hval)
        · intro h
          exact absurd h (by simp [hloop])
      · right
        simp only [DTW, hloop]
        exact hval
  · intro a maxCost hmc
    obtain ⟨out, hout, hval⟩ := dtwLoop_diag a maxCost hmc a []
      (List.replicate a.length dtwInf) (by simp) (by simp)
      (by intro x hx; simp at hx)
      (by intro x hx; rw [List.eq_of_mem_replicate hx]; norm_num [dtwInf])
    simp only [List.nil_append] at hout
    simp only [DTW, hout]
    exact hval

/-- C6 witness: concrete instances of both parts. -/
theorem DTW_spec_witness :
    DTW [1, 2] [1, 2] 5 = 0 ∧ (DTW [1] [3] 0 = -1 ∨ 0 ≤ DTW [1] [3] 0) :=
  ⟨DTW_spec.2 [1, 2] 5 (by norm_num), (DTW_spec.1 [1] [3] 0).2⟩

/-! ## Stats evaluator (`internal/services/scanner/stats`, `ComputeStats` /
`computeLineStats`) -/

instance : Inhabited Candle := ⟨⟨0, 0, 0, 0, 0⟩⟩

/-- A fetcher (`Fetch(ticker, from, to)`); `none` models an error return. -/
def Fetcher : Type := String → Int → Int → Option (List Candle)

/-- Go `time.AddDate(0, 0, k)` on a Unix-seconds timestamp. -/
def addDays (t : Int) (k : Int) : Int := t + 86400 * k

/-- Result struct `models.ScanStats`. -/
structure ScanStats where
  TotalMatches : Nat
  PriceChange : ℚ
  Probability : ℚ
  deriving Repr, DecidableEq

/-- The four accumulators of the stats loops. -/
structure StatsAcc where
  considered : Nat
  posCtr : Nat
  posSumChange : ℚ
  negSumChange : ℚ
  deriving Repr, DecidableEq

/-- Shared tail of both stats loops: one surviving forward-candle series
updates the accumulators (`delta ≥ 0` increments `posCtr` and adds to
`posSumChange`; otherwise `negSumChange -= |delta| / candles[0].Open`). -/
def statsUpdate (acc : StatsAcc) (firstOpen delta : ℚ) : StatsAcc :=
  if delta ≥ 0 then
    { acc with considered := acc.considered + 1, posCtr := acc.posCtr + 1,
               posSumChange := acc.posSumChange + delta / firstOpen }
  else
    { acc with considered := acc.considered + 1,
               negSumChange := acc.negSumChange - (-delta) / firstOpen }

/-- Tail of the fixed-horizon loop body after the (possibly retried) fetch:
skip when empty, otherwise sum the first `min daysToWatch len` close-open
bodies and update. -/
def statsStepCandles (daysToWatch : Int) (acc : StatsAcc)
    (candles : List Candle) : StatsAcc :=
  if candles.isEmpty then acc
  else
    statsUpdate acc (candles.headD default).Open
      (((candles.take (min daysToWatch (candles.length : Int)).toNat).map
        (fun c => c.Close - c.Open)).sum)

/-- One match of the fixed-horizon loop of `Evaluator.ComputeStats`
(`daysToWatch ≠ 0`): fetch `[To+1d, To+daysToWatch d]`, retry once with the
window extended by one day when the series is shorter than `daysToWatch`
(a failed retry leaves a nil series), then hand over to
`statsStepCandles`. -/
def statsStepFixed (fetch : Fetcher) (daysToWatch : Int) (acc : StatsAcc)
    (m : ChartSegment) : StatsAcc :=
  match fetch m.Ticker (addDays m.To 1) (addDays m.To daysToWatch) with
  | none => acc
  | some first =>
    statsStepCandles daysToWatch acc
      (if (first.length : Int) < daysToWatch then
        (fetch m.Ticker (addDays m.To 1) (addDays m.To (1 + daysToWatch))).getD []
      else first)

/-- Body-sign walk of `computeLineStats`: starting from the first candle's
body sign, sum `Close - Open` while the sign matches, stopping at the first
candle whose body sign differs. -/
def lineDelta (sign : Bool) : List Candle → ℚ
  | [] => 0
  | c :: rest =>
    if (decide (c.Close - c.Open ≥ 0)) ≠ sign then 0
    else (c.Close - c.Open) + lineDelta sign rest

/-- Tail of the `computeLineStats` loop body after the fetch. -/
def statsLineCandles (acc : StatsAcc) (candles : List Candle) : StatsAcc :=
  if candles.isEmpty then acc
  else
    statsUpdate acc (candles.headD default).Open
      (lineDelta
        (decide ((candles.headD default).Close - (candles.headD default).Open ≥ 0))
        candles)

/-- One match of the `computeLineStats` loop (`daysToWatch = 0`): fetch 30
days forward, skip on error, accumulate the same-direction run. -/
def statsStepLine (fetch : Fetcher) (acc : StatsAcc) (m : ChartSegment) : StatsAcc :=
  match fetch m.Ticker (addDays m.To 1) (addDays m.To 30) with
  | none => acc
  | some candles => statsLineCandles acc candles

/-- Final aggregation shared by `ComputeStats` and `computeLineStats`. The Go
condition `posCtr > considered - posCtr` is over ints; the loop invariant
`posCtr ≤ considered` makes the truncated `Nat` subtraction coincide. -/
def statsAggregate (acc : StatsAcc) : ScanStats :=
  if acc.considered = 0 then ⟨0, 0, 0⟩
  else if acc.considered - acc.posCtr < acc.posCtr then
    ⟨acc.considered, acc.posSumChange / (acc.posCtr : ℚ),
     (acc.posCtr : ℚ) / (acc.considered : ℚ)⟩
  else
    ⟨acc.considered, acc.negSumChange / ((acc.considered - acc.posCtr : Nat) : ℚ),
     ((acc.considered - acc.posCtr : Nat) : ℚ) / (acc.considered : ℚ)⟩

/-- Accumulator of the fixed-horizon loop over all matches. -/
def statsAccFixed (fetch : Fetcher) (daysToWatch : Int)
    (ms : List ChartSegment) : StatsAcc :=
  ms.foldl (statsStepFixed fetch daysToWatch) ⟨0, 0, 0, 0⟩

/-- Accumulator of the line-trend loop over all matches. -/
def statsAccLine (fetch : Fetcher) (ms : List ChartSegment) : StatsAcc :=
  ms.foldl (statsStepLine fetch) ⟨0, 0, 0, 0⟩

/-- Go `Evaluator.ComputeStats`; `none` fetcher models a nil evaluator or
nil fetcher. -/
def ComputeStats (fetch : Option Fetcher) (ms : List ChartSegment)
    (daysToWatch : Int) : ScanStats :=
  match fetch with
  | none => ⟨0, 0, 0⟩
  | some f =>
    if ms.isEmpty then ⟨0, 0, 0⟩
    else if daysToWatch = 0 then statsAggregate (statsAccLine f ms)
    else statsAggregate (statsAccFixed f daysToWatch ms)

theorem statsUpdate_counters (acc : StatsAcc) (firstOpen delta : ℚ) :
    (statsUpdate acc firstOpen delta).considered = acc.considered + 1 ∧
    ((statsUpdate acc firstOpen delta).posCtr = acc.posCtr ∨
     (statsUpdate acc firstOpen delta).posCtr = acc.posCtr + 1) := by
  unfold statsUpdate
  split
  · exact ⟨rfl, Or.inr rfl⟩
  · exact ⟨rfl, Or.inl rfl⟩

theorem statsStepCandles_counters (d : Int) (acc : StatsAcc)
    (candles : List Candle) :
    ((statsStepCandles d acc candles).considered = acc.considered ∧
     (statsStepCandles d acc candles).posCtr = acc.posCtr) ∨
    ((statsStepCandles d acc candles).considered = acc.considered + 1 ∧
     ((statsStepCandles d acc candles).posCtr = acc.posCtr ∨
      (statsStepCandles d acc candles).posCtr = acc.posCtr + 1)) := by
  unfold statsStepCandles
  split
  · exact Or.inl ⟨rfl, rfl⟩
  · exact Or.inr (statsUpdate_counters acc _ _)

theorem statsLineCandles_counters (acc : StatsAcc) (candles : List Candle) :
    ((statsLineCandles acc candles).considered = acc.considered ∧
     (statsLineCandles acc candles).posCtr = acc.posCtr) ∨
    ((statsLineCandles acc candles).considered = acc.considered + 1 ∧
     ((statsLineCandles acc candles).posCtr = acc.posCtr ∨
      (statsLineCandles acc candles).posCtr = acc.posCtr + 1)) := by
  unfold statsLineCandles
  split
  · exact Or.inl ⟨rfl, rfl⟩
  · exact Or.inr (statsUpdate_counters acc _ _)

/-- Counter shape of one fixed-horizon step: `considered` grows by at most
one and `posCtr` never outgrows `considered`. -/
theorem statsStepFixed_counters (fetch : Fetcher) (d : Int) (acc : StatsAcc)
    (m : ChartSegment) :
    ((statsStepFixed fetch d acc m).considered = acc.considered ∧
     (statsStepFixed fetch d acc m).posCtr = acc.posCtr) ∨
    ((statsStepFixed fetch d acc m).considered = acc.considered + 1 ∧
     ((statsStepFixed fetch d acc m).posCtr = acc.posCtr ∨
      (statsStepFixed fetch d acc m).posCtr = acc.posCtr + 1)) := by
  unfold statsStepFixed
  split
  · exact Or.inl ⟨rfl, rfl⟩
  · exact statsStepCandles_counters d acc _

/-- Counter shape of one line-trend step. -/
theorem statsStepLine_counters (fetch : Fetcher) (acc : StatsAcc)
    (m : ChartSegment) :
    ((statsStepLine fetch acc m).considered = acc.considered ∧
     (statsStepLine fetch acc m).posCtr = acc.posCtr) ∨
    ((statsStepLine fetch acc m).considered = acc.considered + 1 ∧
     ((statsStepLine fetch acc m).posCtr = acc.posCtr ∨
      (statsStepLine fetch acc m).posCtr = acc.posCtr + 1)) := by
  unfold statsStepLine
  split
  · exact Or.inl ⟨rfl, rfl⟩
  · exact statsLineCandles_counters acc _

/-- Fold invariant common to both stats loops: counters only grow, at most
one per match, and `posCtr` never outgrows `considered`. -/
theorem foldl_counters (step : StatsAcc → ChartSegment → StatsAcc)
    (hstep : ∀ acc m,
      ((step acc m).considered = acc.considered ∧ (step acc m).posCtr = acc.posCtr) ∨
      ((step acc m).considered = acc.considered + 1 ∧
       ((step acc m).posCtr = acc.posCtr ∨ (step acc m).posCtr = acc.posCtr + 1))) :
    ∀ (ms : List ChartSegment) (acc : StatsAcc),
      acc.considered ≤ (ms.foldl step acc).considered ∧
      acc.posCtr ≤ (ms.foldl step acc).posCtr ∧
      (ms.foldl step acc).considered - acc.considered ≤ ms.length ∧
      (ms.foldl step acc).posCtr - acc.posCtr ≤
        (ms.foldl step acc).considered - acc.considered := by
  intro ms
  induction ms with
  | nil => simp
  | cons m t ih =>
    intro acc
    simp only [List.foldl_cons, List.length_cons]
    obtain h1 := hstep acc m
    obtain ⟨ih1, ih2, ih3, ih4⟩ := ih (step acc m)
    rcases h1 with ⟨ha, hb⟩ | ⟨ha, hb | hb⟩ <;> omega

/-- The aggregation contract of the stats evaluator for one final
accumulator, bounded by the match-list length `n`. -/
def AggSpec (acc : StatsAcc) (n : Nat) : Prop :=
  (acc.considered - acc.posCtr < acc.posCtr →
    (statsAggregate acc).PriceChange = acc.posSumChange / (acc.posCtr : ℚ) ∧
    (statsAggregate acc).Probability = (acc.posCtr : ℚ) / (acc.considered : ℚ)) ∧
  (acc.posCtr ≤ acc.considered - acc.posCtr →
    (statsAggregate acc).PriceChange =
      acc.negSumChange / ((acc.considered - acc.posCtr : Nat) : ℚ) ∧
    (statsAggregate acc).Probability =
      ((acc.considered - acc.posCtr : Nat) : ℚ) / (acc.considered : ℚ)) ∧
  0 ≤ (statsAggregate acc).Probability ∧
  (statsAggregate acc).Probability ≤ 1 ∧
  (statsAggregate acc).TotalMatches = acc.considered ∧
  acc.considered ≤ n

theorem statsAggregate_contract (acc : StatsAcc) (hpc : acc.posCtr ≤ acc.considered)
    (h0 : 0 < acc.considered) (n : Nat) (hn : acc.considered ≤ n) :
    AggSpec acc n := by
  have hc0 : acc.considered ≠ 0 := Nat.pos_iff_ne_zero.mp h0
  have hcpos : (0 : ℚ) < (acc.considered : ℚ) := by exact_mod_cast h0
  unfold AggSpec statsAggregate
  rw [if_neg hc0]
  by_cases hbr : acc.considered - acc.posCtr < acc.posCtr
  · rw [if_pos hbr]
    refine ⟨fun _ => ⟨rfl, rfl⟩, fun hcon => absurd hbr (by omega), ?_, ?_, rfl, hn⟩
    · exact div_nonneg (by positivity) (le_of_lt hcpos)
    · rw [div_le_one hcpos]
      exact_mod_cast hpc
  · rw [if_neg hbr]
    refine ⟨fun hcon => absurd hcon hbr, fun _ => ⟨rfl, rfl⟩, ?_, ?_, rfl, hn⟩
    · exact div_nonneg (by positivity) (le_of_lt hcpos)
    · rw [div_le_one hcpos]
      exact_mod_cast Nat.sub_le acc.considered acc.posCtr

/-- C3: in both stats modes, when at least one match was considered, the
aggregation divides the prevailing-direction sum by its own counter and
reports that counter's share as the probability (ties take the negative
branch); the probability lies in `[0,1]` and `TotalMatches` equals
`considered`, which never exceeds the number of matches. -/
theorem ComputeStats_aggregation :
    ∀ (f : Fetcher) (ms : List ChartSegment),
      (∀ d : Int, 0 < (statsAccFixed f d ms).considered →
        AggSpec (statsAccFixed f d ms) ms.length) ∧
      (0 < (statsAccLine f ms).considered →
        AggSpec (statsAccLine f ms) ms.length) := by
  intro f ms
  constructor
  · intro d h0
    have hinv :=
      foldl_counters (statsStepFixed f d) (statsStepFixed_counters f d) ms ⟨0, 0, 0, 0⟩
    dsimp only at hinv
    refine statsAggregate_contract (statsAccFixed f d ms) ?_ h0 ms.length ?_ <;>
      unfold statsAccFixed <;> omega
  · intro h0
    have hinv :=
      foldl_counters (statsStepLine f) (statsStepLine_counters f) ms ⟨0, 0, 0, 0⟩
    dsimp only at hinv
    refine statsAggregate_contract (statsAccLine f ms) ?_ h0 ms.length ?_ <;>
      unfold statsAccLine <;> omega

/-- C10: whenever the stats aggregation takes the positive branch its
divisor `posCtr` is strictly positive, and whenever it takes the negative
branch its divisor `considered - posCtr` is strictly positive, in both
modes, for any fetcher behavior. -/
theorem ComputeStats_no_div_zero :
    ∀ (f : Fetcher) (ms : List ChartSegment),
      (∀ d : Int, 0 < (statsAccFixed f d ms).considered →
        ((statsAccFixed f d ms).considered - (statsAccFixed f d ms).posCtr <
            (statsAccFixed f d ms).posCtr →
          0 < (statsAccFixed f d ms).posCtr) ∧
        ((statsAccFixed f d ms).posCtr ≤
            (statsAccFixed f d ms).considered - (statsAccFixed f d ms).posCtr →
          0 < (statsAccFixed f d ms).considered - (statsAccFixed f d ms).posCtr)) ∧
      (0 < (statsAccLine f ms).considered →
        ((statsAccLine f ms).considered - (statsAccLine f ms).posCtr <
            (statsAccLine f ms).posCtr →
          0 < (statsAccLine f ms).posCtr) ∧
        ((statsAccLine f ms).posCtr ≤
            (statsAccLine f ms).considered - (statsAccLine f ms).posCtr →
          0 < (statsAccLine f ms).considered - (statsAccLine f ms).posCtr)) := by
  intro f ms
  constructor
  · intro d h0
    have hinv :=
      foldl_counters (statsStepFixed f d) (statsStepFixed_counters f d) ms ⟨0, 0, 0, 0⟩
    dsimp only at hinv
    unfold statsAccFixed at h0 ⊢
    omega
  · intro h0
    have hinv :=
      foldl_counters (statsStepLine f) (statsStepLine_counters f) ms ⟨0, 0, 0, 0⟩
    dsimp only at hinv
    unfold statsAccLine at h0 ⊢
    omega

/-- A fetcher used by concrete witnesses: one rising forward candle. -/
def demoFetch : Fetcher := fun _ _ _ => some [⟨0, 1, 2, 0, 2⟩]

/-- A one-element match list used by concrete witnesses. -/
def demoMatches : List ChartSegment := [⟨"A", 0, 0, []⟩]

/-- Concrete evaluation of the fixed-horizon accumulator on the demo data:
one considered match, positive direction. -/
theorem demo_acc_eval : statsAccFixed demoFetch 1 demoMatches = ⟨1, 1, 1, 0⟩ := by
  simp only [statsAccFixed, demoMatches, demoFetch, List.foldl_cons, List.foldl_nil,
    statsStepFixed, statsStepCandles, statsUpdate, addDays]
  norm_num

/-- C3 witness: one match, one rising forward candle, fixed horizon 1. -/
theorem ComputeStats_aggregation_witness :
    AggSpec (statsAccFixed demoFetch 1 demoMatches) demoMatches.length :=
  (ComputeStats_aggregation demoFetch demoMatches).1 1
    (by rw [demo_acc_eval]; decide)

/-- C10 witness: the same concrete run takes the positive branch with a
positive divisor. -/
theorem ComputeStats_no_div_zero_witness :
    0 < (statsAccFixed demoFetch 1 demoMatches).posCtr :=
  ((ComputeStats_no_div_zero demoFetch demoMatches).1 1
    (by rw [demo_acc_eval]; decide)).1
    (by rw [demo_acc_eval]; decide)

/-! ## Candle scanner (`services/scanner/internal/candle/scanner.go`) -/

/-- Go `models.Candle.Normalize`. -/
def Candle.Normalize (c : Candle) (mn mx : ℚ) : Candle :=
  { c with Open := (c.Open - mn) / (if mx - mn = 0 then 1 else mx - mn),
           High := (c.High - mn) / (if mx - mn = 0 then 1 else mx - mn),
           Low := (c.Low - mn) / (if mx - mn = 0 then 1 else mx - mn),
           Close := (c.Close - mn) / (if mx - mn = 0 then 1 else mx - mn) }

/-- Go `models.NormalizeCandles`: rescale by the global `[minLow, maxHigh]`
of the series. -/
def NormalizeCandles (candles : List Candle) : List Candle :=
  if candles.isEmpty then []
  else
    candles.map (fun c =>
      c.Normalize
        ((candles.map (fun x => x.Low)).foldl min (candles.headD default).Low)
        ((candles.map (fun x => x.High)).foldl max (candles.headD default).High))

/-- Go `candle.tailSign`: `math.Signbit(first.Open - last.Close)` over the
tail (`true` for a negative cumulative move; `true` for the empty tail). -/
def tailSign (candles : List Candle) : Bool :=
  if candles.isEmpty then true
  else decide ((candles.headD default).Open - ((candles.getLast?).getD default).Close < 0)

/-- One candle pair of the `candle.similarCoreWithShadows` loop. -/
def candleSimilar (w t : Candle) (bodyTolerance shadowTolerance : ℚ) : Bool :=
  decide ((w.Open - w.Close < 0) = (t.Open - t.Close < 0)) &&
  decide (|w.Open - t.Open| ≤ bodyTolerance) &&
  decide (|w.Close - t.Close| ≤ bodyTolerance) &&
  decide (|(w.High - max w.Open w.Close) - (t.High - max t.Open t.Close)| ≤ shadowTolerance) &&
  decide (|(min w.Open w.Close - w.Low) - (min t.Open t.Close - t.Low)| ≤ shadowTolerance)

/-- Go `candle.similarCoreWithShadows` (callers pass equal-length slices). -/
def similarCoreWithShadows (window targetCandles : List Candle)
    (bodyTolerance shadowTolerance : ℚ) : Bool :=
  if window.isEmpty || targetCandles.isEmpty then false
  else (window.zip targetCandles).all
    (fun p => candleSimilar p.1 p.2 bodyTolerance shadowTolerance)

/-- One sliding-window offset of the candle scanner worker loop: normalize
the window, apply the tail gate and the core comparison, build the
`ChartSegment`, and drop it when it overlaps the reference. -/
def candleWindowMatch (normSegment : List Candle) (targetTailSign : Bool)
    (tailLen L : Nat) (segment : ChartSegment) (ticker : String)
    (candles : List Candle) (i : Nat) (opts : CandleScanOptions) :
    Option ChartSegment :=
  if tailLen > 0 ∧
      tailSign ((NormalizeCandles ((candles.drop i).take L)).take tailLen) ≠ targetTailSign
  then none
  else if similarCoreWithShadows
      ((NormalizeCandles ((candles.drop i).take L)).drop tailLen)
      (normSegment.drop tailLen) opts.BodyTolerance opts.ShadowTolerance then
    if isOverlap segment
        ⟨ticker, (((candles.drop i).take L).headD default).Date,
         ((((candles.drop i).take L).getLast?).getD default).Date,
         (candles.drop i).take L⟩ then none
    else some ⟨ticker, (((candles.drop i).take L).headD default).Date,
      ((((candles.drop i).take L).getLast?).getD default).Date,
      (candles.drop i).take L⟩
  else none

/-- One ticker of the candle scanner worker loop (a fetch error contributes
nothing). -/
def candleTickerMatches (fetch : Fetcher) (normSegment : List Candle)
    (targetTailSign : Bool) (tailLen L : Nat) (segment : ChartSegment)
    (searchFrom searchTo : Int) (opts : CandleScanOptions) (ticker : String) :
    List ChartSegment :=
  match fetch ticker searchFrom searchTo with
  | none => []
  | some candles =>
    (List.range (candles.length + 1 - L)).filterMap
      (fun i => candleWindowMatch normSegment targetTailSign tailLen L segment
        ticker candles i opts)

/-- Go `candle.Scanner.FindMatches`, the worker pool flattened to ticker and
offset order; the second component is the returned error (always nil). -/
def candleFindMatches (fetcher : Option Fetcher) (segment : ChartSegment)
    (tickers : List String) (searchFrom searchTo : Int)
    (options : Option CandleScanOptions) : List ChartSegment × Option String :=
  match fetcher with
  | none => ([], none)
  | some fetch =>
    if segment.Candles.isEmpty || tickers.isEmpty then ([], none)
    else
      (tickers.foldl (fun acc ticker =>
        acc ++ candleTickerMatches fetch (NormalizeCandles segment.Candles)
          (tailSign ((NormalizeCandles segment.Candles).take
            (min (CandleScanOptions.withDefaults options).TailLen.toNat
              segment.Candles.length)))
          (min (CandleScanOptions.withDefaults options).TailLen.toNat
            segment.Candles.length)
          segment.Candles.length segment searchFrom searchTo
          (CandleScanOptions.withDefaults options) ticker) [], none)

/-- Membership in a fold that only appends: every element comes from the
initial accumulator or from some processed item. -/
theorem mem_foldl_append {α β : Type} (g : β → List α) (l : List β) :
    ∀ (init : List α) (x : α), x ∈ l.foldl (fun acc t => acc ++ g t) init →
      x ∈ init ∨ ∃ t ∈ l, x ∈ g t := by
  induction l with
  | nil =>
    intro init x h
    exact Or.inl h
  | cons t ts ih =>
    intro init x h
    simp only [List.foldl_cons] at h
    rcases ih (init ++ g t) x h with h | ⟨u, hu, hx⟩
    · rcases List.mem_append.mp h with h | h
      · exact Or.inl h
      · exact Or.inr ⟨t, List.mem_cons_self _ _, h⟩
    · exact Or.inr ⟨u, List.mem_cons_of_mem _ hu, hx⟩

theorem candleWindowMatch_props (normSegment : List Candle) (targetTailSign : Bool)
    (tailLen L : Nat) (segment : ChartSegment) (ticker : String)
    (candles : List Candle) (i : Nat) (opts : CandleScanOptions)
    (m : ChartSegment)
    (h : candleWindowMatch normSegment targetTailSign tailLen L segment ticker
      candles i opts = some m) :
    m.Candles = (candles.drop i).take L ∧ isOverlap segment m = false := by
  unfold candleWindowMatch at h
  split at h
  · exact absurd h (by simp)
  · split at h
    · split at h
      · exact absurd h (by simp)
      · rename_i hov
        obtain rfl := Option.some.injEq _ _ ▸ h
        refine ⟨rfl, ?_⟩
        simpa using hov
    · exact absurd h (by simp)

/-- C2: every ChartSegment returned by the candle scanner has exactly as
many candles as the reference segment and does not overlap the reference
(per the overlap predicate, abutting endpoints not counting). -/
theorem candleFindMatches_spec :
    ∀ (fetcher : Option Fetcher) (segment : ChartSegment) (tickers : List String)
      (searchFrom searchTo : Int) (options : Option CandleScanOptions),
      ((candleFindMatches fetcher segment tickers searchFrom searchTo options).1).all
        (fun m => (m.Candles.length == segment.Candles.length) &&
          !(isOverlap segment m)) = true := by
  intro fetcher segment tickers searchFrom searchTo options
  rw [List.all_eq_true]
  intro m hm
  match hf : fetcher with
  | none =>
    rw [candleFindMatches] at hm
    simp at hm
  | some fetch =>
    rw [candleFindMatches] at hm
    split at hm
    · simp at hm
    · simp only at hm
      rcases mem_foldl_append _ tickers [] m hm with h | ⟨t, _ht, hx⟩
      · simp at h
      · unfold candleTickerMatches at hx
        split at hx
        · simp at hx
        · rename_i candles heq
          obtain ⟨i, hi, hsome⟩ := List.mem_filterMap.mp hx
          obtain ⟨hcand, hov⟩ := candleWindowMatch_props _ _ _ _ _ _ _ _ _ _ hsome
          have hlen : m.Candles.length = segment.Candles.length := by
            rw [hcand, List.length_take, List.length_drop]
            rw [List.mem_range] at hi
            omega
          simp [hlen, hov]

/-! ## Chart scanner (`internal/services/scanner/chart/scanner.go`) -/

/-- Go struct `chart.match` (a found segment plus its normalized DTW
distance). -/
structure ChartMatch where
  Segment : ChartSegment
  Distance : ℚ
  deriving Repr, DecidableEq

/-- Go `chart.getPricesVec`: close prices, z-normalized, resampled. -/
def getPricesVec (sqrtFn : ℚ → ℚ) (candles : List Candle)
    (resampledLength : Nat) : List ℚ :=
  Resample (ZNormalize sqrtFn (candles.map (fun c => c.Close))) resampledLength

/-- One `winStart` task of `chart.matchWorker`: the out-of-range guard on
`cacheVecs`, the LB_Keogh gate, the DTW gate, the end-index guard, and the
match construction with `Distance = d / resampledLength`. -/
def matchWorkerTask (sqrtFn : ℚ → ℚ) (seedVec lower upper : List ℚ)
    (cacheVecs : List (List ℚ)) (windowLen : Nat) (ticker : String)
    (candles : List Candle) (tolerance : ℚ) (resampledLength : Nat)
    (winStart : Nat) : Option ChartMatch :=
  match cacheVecs.get? winStart with
  | none => none
  | some candlesVec =>
    if LbKeoghDistance sqrtFn seedVec lower upper candlesVec >
        tolerance * (resampledLength : ℚ) then none
    else if DTW seedVec candlesVec (tolerance * (resampledLength : ℚ)) < 0 ∨
        DTW seedVec candlesVec (tolerance * (resampledLength : ℚ)) >
          tolerance * (resampledLength : ℚ) then none
    else if candles.length ≤ winStart + windowLen - 1 then none
    else if ((candles.drop winStart).take windowLen).isEmpty then none
    else some ⟨⟨ticker, (((candles.drop winStart).take windowLen).headD default).Date,
      ((((candles.drop winStart).take windowLen).getLast?).getD default).Date,
      (candles.drop winStart).take windowLen⟩,
      DTW seedVec candlesVec (tolerance * (resampledLength : ℚ)) / (resampledLength : ℚ)⟩

/-- One `windowLen` iteration of `chart.findMatchesForSeed`: vectorize every
offset, then run the worker tasks over all offsets. -/
def windowLenMatches (sqrtFn : ℚ → ℚ) (seedVec lower upper : List ℚ)
    (ticker : String) (candles : List Candle) (tolerance : ℚ)
    (resampledLength : Nat) (windowLen : Nat) : List ChartMatch :=
  (List.range (candles.length + 1 - windowLen)).filterMap
    (matchWorkerTask sqrtFn seedVec lower upper
      ((List.range (candles.length + 1 - windowLen)).map
        (fun i => getPricesVec sqrtFn ((candles.drop i).take windowLen) resampledLength))
      windowLen ticker candles tolerance resampledLength)

/-- Go `chart.Scanner.findMatchesForSeed`. -/
def findMatchesForSeed (sqrtFn : ℚ → ℚ) (seedVec : List ℚ) (ticker : String)
    (candles : List Candle) (minLen maxLen : Nat) (tolerance : ℚ)
    (resampledLength : Nat) : List ChartMatch :=
  if candles.length < minLen then []
  else
    (List.range' minLen (min maxLen candles.length + 1 - minLen)).foldl
      (fun acc windowLen => acc ++ windowLenMatches sqrtFn seedVec
        (LbKeoghEnvelope seedVec resampledLength).1
        (LbKeoghEnvelope seedVec resampledLength).2
        ticker candles tolerance resampledLength windowLen) []

/-- One ticker of the chart scanner worker loop (fetch errors and series
shorter than `minLen` contribute nothing). -/
def chartTickerMatches (sqrtFn : ℚ → ℚ) (fetch : Fetcher) (seedVec : List ℚ)
    (minLen maxLen : Nat) (tolerance : ℚ) (resampledLength : Nat)
    (searchFrom searchTo : Int) (ticker : String) : List ChartMatch :=
  match fetch ticker searchFrom searchTo with
  | none => []
  | some candles =>
    if candles.length < minLen then []
    else findMatchesForSeed sqrtFn seedVec ticker candles minLen maxLen
      tolerance resampledLength

/-- All matches collected by `chart.Scanner.findMatches` before overlap
suppression, the worker pools flattened to ticker and offset order. -/
def chartCollectMatches (sqrtFn : ℚ → ℚ) (fetch : Fetcher)
    (segment : ChartSegment) (tickers : List String)
    (searchFrom searchTo : Int) (options : Option ChartScanOptions) :
    List ChartMatch :=
  tickers.foldl (fun acc ticker =>
    acc ++ chartTickerMatches sqrtFn fetch
      (getPricesVec sqrtFn segment.Candles (segment.Candles.length * 2))
      (max 1 (⌊(segment.Candles.length : ℚ) *
        (ChartScanOptions.WithDefaults options).MinScale⌋).toNat)
      ((⌊(segment.Candles.length : ℚ) *
        (ChartScanOptions.WithDefaults options).MaxScale⌋).toNat)
      (ChartScanOptions.WithDefaults options).Tolerance
      (getPricesVec sqrtFn segment.Candles (segment.Candles.length * 2)).length
      searchFrom searchTo ticker) []

/-- The greedy filter of `chart.removeOverlaps`: walk the sorted list and
keep a match only when it overlaps none of the already-kept ones. -/
def greedyKeep (l : List ChartMatch) : List ChartMatch :=
  l.foldl (fun result m =>
    if result.any (fun e => isOverlap m.Segment e.Segment) then result
    else result ++ [m]) []

/-- Go `chart.removeOverlaps`: sort ascending by `Distance` (`sort.Slice` is
modelled by insertion sort over the same ordering), then greedily keep
non-overlapping matches. -/
def removeOverlaps (ms : List ChartMatch) : List ChartMatch :=
  if ms.isEmpty then ms
  else greedyKeep (ms.insertionSort (fun a b => a.Distance ≤ b.Distance))

/-- The kept match list of the chart scanner. -/
def chartKept (sqrtFn : ℚ → ℚ) (fetch : Fetcher) (segment : ChartSegment)
    (tickers : List String) (searchFrom searchTo : Int)
    (options : Option ChartScanOptions) : List ChartMatch :=
  removeOverlaps
    (chartCollectMatches sqrtFn fetch segment tickers searchFrom searchTo options)

/-- Go `chart.Scanner.findMatches`: preconditions, collection, overlap
suppression, projection to segments; the second component is the returned
error (always nil). -/
def chartFindMatches (sqrtFn : ℚ → ℚ) (fetch : Fetcher) (segment : ChartSegment)
    (tickers : List String) (searchFrom searchTo : Int)
    (options : Option ChartScanOptions) : List ChartSegment × Option String :=
  if segment.Candles.isEmpty || tickers.isEmpty then ([], none)
  else
    ((chartKept sqrtFn fetch segment tickers searchFrom searchTo options).map
      (fun m => m.Segment), none)

/-- Go struct `chart.ScanQuery` (hash field aside). -/
structure ChartScanQuery where
  Segment : ChartSegment
  Options : ChartScanOptions
  SearchFrom : Int
  SearchTo : Int
  Tickers : List String
  deriving Repr, DecidableEq

/-- Go `chart.Scanner.Scan`: nil receiver/fetcher and nil query guards, then
`findMatches`. -/
def chartScan (sqrtFn : ℚ → ℚ) (fetcher : Option Fetcher)
    (query : Option ChartScanQuery) : List ChartSegment × Option String :=
  match fetcher with
  | none => ([], none)
  | some fetch =>
    match query with
    | none => ([], none)
    | some q =>
      chartFindMatches sqrtFn fetch q.Segment q.Tickers q.SearchFrom q.SearchTo
        (some q.Options)

theorem isOverlap_comm (a b : ChartSegment) : isOverlap a b = isOverlap b a := by
  simp only [isOverlap]
  by_cases h : a.Ticker = b.Ticker
  · simp only [h, ne_eq, not_true_eq_false, if_false]
    by_cases h1 : a.To < b.From <;> by_cases h2 : a.To = b.From <;>
      by_cases h3 : b.To < a.From <;> by_cases h4 : b.To = a.From <;>
      simp [h1, h2, h3, h4, eq_comm, h.symm]
  · simp [h, Ne.symm h]

theorem chartTolerance_pos (o : Option ChartScanOptions) :
    0 < (ChartScanOptions.WithDefaults o).Tolerance := by
  match o with
  | none => norm_num [ChartScanOptions.WithDefaults]
  | some o =>
    simp only [ChartScanOptions.WithDefaults]
    split
    · rename_i h
      exact h.1
    · norm_num

theorem matchWorkerTask_distance (sqrtFn : ℚ → ℚ) (seedVec lower upper : List ℚ)
    (cacheVecs : List (List ℚ)) (windowLen : Nat) (ticker : String)
    (candles : List Candle) (tolerance : ℚ) (resampledLength : Nat)
    (winStart : Nat) (m : ChartMatch) (htol : 0 ≤ tolerance)
    (h : matchWorkerTask sqrtFn seedVec lower upper cacheVecs windowLen ticker
      candles tolerance resampledLength winStart = some m) :
    m.Distance ≤ tolerance := by
  unfold matchWorkerTask at h
  split at h
  · exact absurd h (by simp)
  · rename_i candlesVec hget
    split at h
    · exact absurd h (by simp)
    · split at h
      · exact absurd h (by simp)
      · rename_i hlb hdneg
        push_neg at hdneg
        obtain ⟨hd0, hdmax⟩ := hdneg
        split at h
        · exact absurd h (by simp)
        · split at h
          · exact absurd h (by simp)
          · obtain rfl := Option.some.injEq _ _ ▸ h
            simp only
            rcases Nat.eq_zero_or_pos resampledLength with hr | hr
            · subst hr
              simp only [Nat.cast_zero, mul_zero] at hdmax hd0 ⊢
              have hz : DTW seedVec candlesVec 0 = 0 := le_antisymm hdmax hd0
              rw [hz, zero_div]
              exact htol
            · have hrq : (0 : ℚ) < (resampledLength : ℚ) := by exact_mod_cast hr
              rw [div_le_iff₀ hrq]
              linarith [hdmax]

theorem greedyKeep_aux (l : List ChartMatch) :
    ∀ acc : List ChartMatch,
      (∀ x ∈ l.foldl (fun result m =>
          if result.any (fun e => isOverlap m.Segment e.Segment) then result
          else result ++ [m]) acc, x ∈ acc ∨ x ∈ l) ∧
      (List.Pairwise (fun a b => isOverlap a.Segment b.Segment = false) acc →
       List.Pairwise (fun a b => isOverlap a.Segment b.Segment = false)
        (l.foldl (fun result m =>
          if result.any (fun e => isOverlap m.Segment e.Segment) then result
          else result ++ [m]) acc)) := by
  induction l with
  | nil =>
    intro acc
    exact ⟨fun x hx => Or.inl hx, fun h => h⟩
  | cons hd t ih =>
    intro acc
    simp only [List.foldl_cons]
    constructor
    · intro x hx
      rcases (ih _).1 x hx with hx | hx
      · split at hx
        · exact Or.inl hx
        · rcases List.mem_append.mp hx with hx | hx
          · exact Or.inl hx
          · simp only [List.mem_singleton] at hx
            exact Or.inr (hx ▸ List.mem_cons_self _ _)
      · exact Or.inr (List.mem_cons_of_mem _ hx)
    · intro hpw
      apply (ih _).2
      split
      · exact hpw
      · rename_i hany
        rw [List.pairwise_append]
        refine ⟨hpw, List.pairwise_singleton _ _, ?_⟩
        intro a ha b hb
        simp only [List.mem_singleton] at hb
        subst hb
        have hcon2 : ¬ (isOverlap b.Segment a.Segment = true) := by
          intro hcon
          exact hany (List.any_eq_true.mpr ⟨a, ha, hcon⟩)
        rw [isOverlap_comm] at hcon2
        simpa using hcon2

/-- C1: every match kept by the chart scanner was accepted with a normalized
DTW distance at most the effective tolerance, and no two segments in the
returned list overlap. -/
theorem chartScan_invariants :
    ∀ (sqrtFn : ℚ → ℚ) (fetch : Fetcher) (segment : ChartSegment)
      (tickers : List String) (searchFrom searchTo : Int)
      (options : Option ChartScanOptions),
      (chartKept sqrtFn fetch segment tickers searchFrom searchTo options).all
        (fun m => decide (m.Distance ≤
          (ChartScanOptions.WithDefaults options).Tolerance)) = true ∧
      List.Pairwise (fun s1 s2 => isOverlap s1 s2 = false)
        ((chartFindMatches sqrtFn fetch segment tickers searchFrom searchTo
          options).1) := by
  intro sqrtFn fetch segment tickers searchFrom searchTo options
  have hcollect : ∀ m ∈ chartCollectMatches sqrtFn fetch segment tickers
      searchFrom searchTo options,
      m.Distance ≤ (ChartScanOptions.WithDefaults options).Tolerance := by
    intro m hm
    unfold chartCollectMatches at hm
    rcases mem_foldl_append _ tickers [] m hm with h | ⟨t, _ht, hx⟩
    · simp at h
    · unfold chartTickerMatches at hx
      split at hx
      · simp at hx
      · split at hx
        · simp at hx
        · unfold findMatchesForSeed at hx
          split at hx
          · simp at hx
          · rcases mem_foldl_append _ _ [] m hx with h | ⟨wl, _hwl, hwx⟩
            · simp at h
            · unfold windowLenMatches at hwx
              obtain ⟨i, _hi, hsome⟩ := List.mem_filterMap.mp hwx
              exact matchWorkerTask_distance _ _ _ _ _ _ _ _ _ _ _ _
                (le_of_lt (chartTolerance_pos options)) hsome
  have hkept : ∀ m ∈ chartKept sqrtFn fetch segment tickers searchFrom
      searchTo options,
      m.Distance ≤ (ChartScanOptions.WithDefaults options).Tolerance := by
    intro m hm
    unfold chartKept removeOverlaps at hm
    split at hm
    · rename_i hemp
      apply hcollect
      exact hm
    · unfold greedyKeep at hm
      rcases (greedyKeep_aux _ []).1 m hm with h | h
      · simp at h
      · exact hcollect m ((List.mem_insertionSort _).mp h)
  constructor
  · rw [List.all_eq_true]
    intro m hm
    exact decide_eq_true (hkept m hm)
  · unfold chartFindMatches
    split
    · simp
    · simp only
      rw [List.pairwise_map]
      unfold chartKept removeOverlaps
      split
      · rename_i hemp
        rw [List.isEmpty_iff] at hemp
        rw [hemp]
        exact List.Pairwise.nil
      · unfold greedyKeep
        exact (greedyKeep_aux _ []).2 List.Pairwise.nil

/-- C7: a nil fetcher, an empty reference segment, or an empty ticker list
makes both scanners return empty matches and a nil error. -/
theorem scanners_preconditions :
    (∀ (fetcher : Option Fetcher) (segment : ChartSegment) (tickers : List String)
       (searchFrom searchTo : Int) (optC : Option CandleScanOptions),
      fetcher = none ∨ segment.Candles.isEmpty = true ∨ tickers.isEmpty = true →
      candleFindMatches fetcher segment tickers searchFrom searchTo optC =
        ([], none)) ∧
    (∀ (sqrtFn : ℚ → ℚ) (fetcher : Option Fetcher) (q : Option ChartScanQuery),
      fetcher = none ∨ q = none ∨
        (∃ q0, q = some q0 ∧
          (q0.Segment.Candles.isEmpty = true ∨ q0.Tickers.isEmpty = true)) →
      chartScan sqrtFn fetcher q = ([], none)) := by
  constructor
  · intro fetcher segment tickers searchFrom searchTo optC h
    rcases h with rfl | h | h
    · rfl
    · cases fetcher with
      | none => rfl
      | some fetch => simp [candleFindMatches, h]
    · cases fetcher with
      | none => rfl
      | some fetch => simp [candleFindMatches, h]
  · intro sqrtFn fetcher q h
    rcases h with rfl | rfl | ⟨q0, rfl, h⟩
    · rfl
    · cases fetcher with
      | none => rfl
      | some fetch => rfl
    · cases fetcher with
      | none => rfl
      | some fetch =>
        rcases h with h | h <;> simp [chartScan, chartFindMatches, h]

/-- C7 witness: concrete invalid inputs produce empty matches and nil
error. -/
theorem scanners_preconditions_witness :
    candleFindMatches none ⟨"A", 0, 0, []⟩ ["X"] 0 0 none = ([], none) ∧
    candleFindMatches (some demoFetch) ⟨"A", 0, 0, []⟩ ["X"] 0 0 none = ([], none) ∧
    candleFindMatches (some demoFetch) ⟨"A", 0, 0, [⟨0, 1, 1, 1, 1⟩]⟩ [] 0 0 none =
      ([], none) ∧
    chartScan id (some demoFetch)
      (some ⟨⟨"A", 0, 0, []⟩, ⟨1, 1, 1⟩, 0, 0, ["X"]⟩) = ([], none) :=
  ⟨scanners_preconditions.1 none ⟨"A", 0, 0, []⟩ ["X"] 0 0 none (Or.inl rfl),
   scanners_preconditions.1 (some demoFetch) ⟨"A", 0, 0, []⟩ ["X"] 0 0 none
     (Or.inr (Or.inl rfl)),
   scanners_preconditions.1 (some demoFetch) ⟨"A", 0, 0, [⟨0, 1, 1, 1, 1⟩]⟩ [] 0 0 none
     (Or.inr (Or.inr rfl)),
   scanners_preconditions.2 id (some demoFetch)
     (some ⟨⟨"A", 0, 0, []⟩, ⟨1, 1, 1⟩, 0, 0, ["X"]⟩)
     (Or.inr (Or.inr ⟨_, rfl, Or.inl rfl⟩))⟩

/-! ## Request hashing (`chart/scanQuery.go` and the candle scan query,
`ScanQuery.Hash`): SHA-256 over a canonical serialization of the reference
candles, the options, the Unix-second search bounds, and the ticker list, in
that exact order, reported as a lowercase hexadecimal string. The Go standard
library pieces (`crypto/sha256`, `encoding/hex`) are implemented below;
`encoding/json` is modelled by a canonical byte serialization of exactly the
five encoded fields — the verified properties depend only on the
serialization being a deterministic function of those fields. -/

/-- Truncation to a 32-bit word. -/
def w32 (n : Nat) : Nat := n % 4294967296

/-- 32-bit rotate right. -/
def rotr32 (x n : Nat) : Nat := w32 ((x >>> n) ||| (x <<< (32 - n)))

/-- The SHA-256 round constants. -/
def sha256K : List Nat :=
  [1116352408, 1899447441, 3049323471, 3921009573,
   961987163, 1508970993, 2453635748, 2870763221,
   3624381080, 310598401, 607225278, 1426881987,
   1925078388, 2162078206, 2614888103, 3248222580,
   3835390401, 4022224774, 264347078, 604807628,
   770255983, 1249150122, 1555081692, 1996064986,
   2554220882, 2821834349, 2952996808, 3210313671,
   3336571891, 3584528711, 113926993, 338241895,
   666307205, 773529912, 1294757372, 1396182291,
   1695183700, 1986661051, 2177026350, 2456956037,
   2730485921, 2820302411, 3259730800, 3345764771,
   3516065817, 3600352804, 4094571909, 275423344,
   430227734, 506948616, 659060556, 883997877,
   958139571, 1322822218, 1537002063, 1747873779,
   1955562222, 2024104815, 2227730452, 2361852424,
   2428436474, 2756734187, 3204031479, 3329325298]

/-- The SHA-256 initial hash state. -/
def sha256H0 : List Nat :=
  [1779033703, 3144134277, 1013904242, 2773480762,
   1359893119, 2600822924, 528734635, 1541459225]

/-- SHA-256 padding: a `0x80` byte, zeros to 56 mod 64, and the bit length
as eight big-endian bytes. -/
def sha256Pad (msg : List Nat) : List Nat :=
  msg ++ [128] ++ List.replicate ((119 - msg.length % 64) % 64) 0 ++
    ((List.range 8).map (fun i => (msg.length * 8) >>> (8 * (7 - i)) % 256))

/-- Split a padded message into 64-byte blocks. -/
def sha256Blocks (l : List Nat) : List (List Nat) :=
  (List.range (l.length / 64)).map (fun i => (l.drop (64 * i)).take 64)

/-- The sixteen big-endian words of one block. -/
def sha256Words (b : List Nat) : List Nat :=
  (List.range 16).map (fun i =>
    b.getD (4 * i) 0 * 16777216 + b.getD (4 * i + 1) 0 * 65536 +
    b.getD (4 * i + 2) 0 * 256 + b.getD (4 * i + 3) 0)

/-- The 64-word message schedule. -/
def sha256Schedule (ws : List Nat) : List Nat :=
  (List.range 48).foldl (fun acc j =>
    acc ++ [w32 (
      (rotr32 (acc.getD (j + 14) 0) 17 ^^^ rotr32 (acc.getD (j + 14) 0) 19 ^^^
        (acc.getD (j + 14) 0 >>> 10)) +
      acc.getD (j + 9) 0 +
      (rotr32 (acc.getD (j + 1) 0) 7 ^^^ rotr32 (acc.getD (j + 1) 0) 18 ^^^
        (acc.getD (j + 1) 0 >>> 3)) +
      acc.getD j 0)]) ws

/-- One SHA-256 compression round on the eight-word working state. -/
def sha256Round (st : List Nat) (wk : Nat × Nat) : List Nat :=
  [w32 ((w32 (st.getD 7 0 +
      (rotr32 (st.getD 4 0) 6 ^^^ rotr32 (st.getD 4 0) 11 ^^^ rotr32 (st.getD 4 0) 25) +
      ((st.getD 4 0 &&& st.getD 5 0) ^^^
        ((st.getD 4 0 ^^^ 4294967295) &&& st.getD 6 0)) + wk.2 + wk.1)) +
    (w32 ((rotr32 (st.getD 0 0) 2 ^^^ rotr32 (st.getD 0 0) 13 ^^^
        rotr32 (st.getD 0 0) 22) +
      ((st.getD 0 0 &&& st.getD 1 0) ^^^ (st.getD 0 0 &&& st.getD 2 0) ^^^
        (st.getD 1 0 &&& st.getD 2 0))))),
   st.getD 0 0, st.getD 1 0, st.getD 2 0,
   w32 (st.getD 3 0 +
    w32 (st.getD 7 0 +
      (rotr32 (st.getD 4 0) 6 ^^^ rotr32 (st.getD 4 0) 11 ^^^ rotr32 (st.getD 4 0) 25) +
      ((st.getD 4 0 &&& st.getD 5 0) ^^^
        ((st.getD 4 0 ^^^ 4294967295) &&& st.getD 6 0)) + wk.2 + wk.1)),
   st.getD 4 0, st.getD 5 0, st.getD 6 0]

/-- One SHA-256 block: run 64 rounds and add the result into the hash
state. -/
def sha256Block (h : List Nat) (b : List Nat) : List Nat :=
  List.zipWith (fun x y => w32 (x + y)) h
    (((sha256Schedule (sha256Words b)).zip sha256K).foldl sha256Round h)

/-- Big-endian bytes of one 32-bit word. -/
def wordBytes (w : Nat) : List Nat :=
  [w / 16777216 % 256, w / 65536 % 256, w / 256 % 256, w % 256]

/-- SHA-256 digest (32 bytes) of a byte sequence. -/
def sha256 (msg : List Nat) : List Nat :=
  ((sha256Blocks (sha256Pad msg)).foldl sha256Block sha256H0).foldr
    (fun w acc => wordBytes w ++ acc) []

/-- The lowercase hexadecimal alphabet. -/
def hexChars : List Char := "0123456789abcdef".data

/-- Lowercase hex encoding of a byte list (Go `hex.EncodeToString`). -/
def hexEncode (bytes : List Nat) : String :=
  ⟨(bytes.map (fun b => [hexChars.getD (b / 16 % 16) '0', hexChars.getD (b % 16) '0'])).foldr
    (fun l acc => l ++ acc) []⟩

/-- Decimal digit serialization of a `Nat`. -/
def encNat (n : Nat) : List Nat := (Nat.toDigits 10 n).map Char.toNat

/-- Serialization of an `Int` (a leading `-` byte for negatives). -/
def encInt (i : Int) : List Nat :=
  if i < 0 then 45 :: encNat i.natAbs else encNat i.natAbs

/-- Serialization of a `ℚ` as numerator, `/`, denominator. -/
def encRat (x : ℚ) : List Nat := encInt x.num ++ [47] ++ encNat x.den

/-- Serialization of a string as its character codes plus a quote byte. -/
def encString (s : String) : List Nat := s.data.map Char.toNat ++ [34]

/-- Serialization of one candle (date and the four OHLC fields). -/
def encCandle (c : Candle) : List Nat :=
  encInt c.Date ++ encRat c.Open ++ encRat c.High ++ encRat c.Low ++
    encRat c.Close ++ [44]

/-- Serialization of the reference candle list (one encoder line). -/
def encCandles (l : List Candle) : List Nat :=
  (l.map encCandle).foldr (fun x acc => x ++ acc) [] ++ [10]

/-- Serialization of the chart options (one encoder line). -/
def encChartOptions (o : ChartScanOptions) : List Nat :=
  encRat o.MinScale ++ encRat o.MaxScale ++ encRat o.Tolerance ++ [10]

/-- Serialization of the candle options (one encoder line). -/
def encCandleOptions (o : CandleScanOptions) : List Nat :=
  encInt o.TailLen ++ encRat o.BodyTolerance ++ encRat o.ShadowTolerance ++ [10]

/-- Serialization of the ticker list (one encoder line). -/
def encTickers (ts : List String) : List Nat :=
  (ts.map encString).foldr (fun x acc => x ++ acc) [] ++ [10]

/-- Go `chart.ScanQuery.Hash`: SHA-256 over the serialized candles, options,
Unix-second bounds, and tickers, in this exact order, in lowercase hex. -/
def ChartScanQuery.Hash (q : ChartScanQuery) : String :=
  hexEncode (sha256 (encCandles q.Segment.Candles ++ encChartOptions q.Options ++
    encInt q.SearchFrom ++ [10] ++ encInt q.SearchTo ++ [10] ++
    encTickers q.Tickers))

/-- Go struct `candle.ScanQuery`. -/
structure CandleScanQuery where
  Segment : ChartSegment
  Options : CandleScanOptions
  SearchFrom : Int
  SearchTo : Int
  Tickers : List String
  deriving Repr, DecidableEq

/-- Go `candle.ScanQuery.Hash` (same structure as the chart query hash with
the candle options). -/
def CandleScanQuery.Hash (q : CandleScanQuery) : String :=
  hexEncode (sha256 (encCandles q.Segment.Candles ++ encCandleOptions q.Options ++
    encInt q.SearchFrom ++ [10] ++ encInt q.SearchTo ++ [10] ++
    encTickers q.Tickers))

theorem sha256Round_length (st : List Nat) (wk : Nat × Nat) :
    (sha256Round st wk).length = 8 := rfl

theorem sha256Rounds_length :
    ∀ (l : List (Nat × Nat)) (st : List Nat), st.length = 8 →
      (l.foldl sha256Round st).length = 8 := by
  intro l
  induction l with
  | nil => intro st h; exact h
  | cons p t ih =>
    intro st _h
    simp only [List.foldl_cons]
    exact ih _ (sha256Round_length st p)

theorem sha256Block_length (h b : List Nat) (hh : h.length = 8) :
    (sha256Block h b).length = 8 := by
  unfold sha256Block
  rw [List.length_zipWith, sha256Rounds_length _ _ hh, hh]
  rfl

theorem sha256FoldBlocks_length :
    ∀ (blocks : List (List Nat)) (h : List Nat), h.length = 8 →
      (blocks.foldl sha256Block h).length = 8 := by
  intro blocks
  induction blocks with
  | nil => intro h hh; exact hh
  | cons b t ih =>
    intro h hh
    simp only [List.foldl_cons]
    exact ih _ (sha256Block_length h b hh)

theorem foldr_wordBytes_length (l : List Nat) :
    (l.foldr (fun w acc => wordBytes w ++ acc) []).length = 4 * l.length := by
  induction l with
  | nil => rfl
  | cons w t ih =>
    simp only [List.foldr_cons, List.length_append, ih, List.length_cons]
    simp [wordBytes]
    omega

theorem sha256_length (msg : List Nat) : (sha256 msg).length = 32 := by
  unfold sha256
  rw [foldr_wordBytes_length, sha256FoldBlocks_length _ _ (by rfl)]

theorem hexChars_getD_mem (k : Nat) : hexChars.getD k '0' ∈ hexChars := by
  rw [List.getD_eq_getElem?_getD]
  cases h : hexChars[k]? with
  | none => simp only [Option.getD_none]; decide
  | some c =>
    simp only [Option.getD_some]
    exact List.getElem?_mem h

theorem hexfold_length (bytes : List Nat) :
    ((bytes.map (fun b =>
      [hexChars.getD (b / 16 % 16) '0', hexChars.getD (b % 16) '0'])).foldr
        (fun l acc => l ++ acc) []).length = 2 * bytes.length := by
  induction bytes with
  | nil => rfl
  | cons b t ih =>
    simp only [List.map_cons, List.foldr_cons, List.length_append, ih,
      List.length_cons]
    simp
    omega

theorem hexfold_mem (bytes : List Nat) (c : Char)
    (h : c ∈ (bytes.map (fun b =>
      [hexChars.getD (b / 16 % 16) '0', hexChars.getD (b % 16) '0'])).foldr
        (fun l acc => l ++ acc) []) : c ∈ hexChars := by
  induction bytes with
  | nil => simp at h
  | cons b t ih =>
    simp only [List.map_cons, List.foldr_cons] at h
    rcases List.mem_append.mp h with h | h
    · rcases List.mem_cons.mp h with rfl | h
      · exact hexChars_getD_mem _
      · rcases List.mem_cons.mp h with rfl | h
        · exact hexChars_getD_mem _
        · simp at h
    · exact ih h

/-- C8: the request hash is deterministic — two scan queries (chart or
candle) agreeing on reference candles, options, Unix-second search bounds,
and tickers hash to the same string — and the hash string is the lowercase
hexadecimal encoding (64 hex characters) of a SHA-256 digest. -/
theorem scanQuery_hash_props :
    (∀ q1 q2 : ChartScanQuery,
      q1.Segment.Candles = q2.Segment.Candles → q1.Options = q2.Options →
      q1.SearchFrom = q2.SearchFrom → q1.SearchTo = q2.SearchTo →
      q1.Tickers = q2.Tickers → q1.Hash = q2.Hash) ∧
    (∀ q1 q2 : CandleScanQuery,
      q1.Segment.Candles = q2.Segment.Candles → q1.Options = q2.Options →
      q1.SearchFrom = q2.SearchFrom → q1.SearchTo = q2.SearchTo →
      q1.Tickers = q2.Tickers → q1.Hash = q2.Hash) ∧
    (∀ q : ChartScanQuery,
      (q.Hash.data).all (fun c => decide (c ∈ hexChars)) = true ∧
      q.Hash.length = 64) ∧
    (∀ q : CandleScanQuery,
      (q.Hash.data).all (fun c => decide (c ∈ hexChars)) = true ∧
      q.Hash.length = 64) := by
  refine ⟨?_, ?_, ?_, ?_⟩
  · intro q1 q2 h1 h2 h3 h4 h5
    unfold ChartScanQuery.Hash
    rw [h1, h2, h3, h4, h5]
  · intro q1 q2 h1 h2 h3 h4 h5
    unfold CandleScanQuery.Hash
    rw [h1, h2, h3, h4, h5]
  · intro q
    constructor
    · rw [List.all_eq_true]
      intro c hc
      exact decide_eq_true (hexfold_mem _ c hc)
    · show (hexEncode _).length = 64
      unfold hexEncode
      show ((_ : List Char)).length = 64
      rw [hexfold_length, sha256_length]
  · intro q
    constructor
    · rw [List.all_eq_true]
      intro c hc
      exact decide_eq_true (hexfold_mem _ c hc)
    · show (hexEncode _).length = 64
      unfold hexEncode
      show ((_ : List Char)).length = 64
      rw [hexfold_length, sha256_length]

/-- C8 witness: two concrete queries that differ only in fields outside the
hash input (ticker label and segment bounds) hash identically. -/
theorem scanQuery_hash_props_witness :
    ChartScanQuery.Hash ⟨⟨"AAA", 0, 0, []⟩, ⟨1, 2, 1⟩, 3, 4, ["X"]⟩ =
      ChartScanQuery.Hash ⟨⟨"BBB", 7, 9, []⟩, ⟨1, 2, 1⟩, 3, 4, ["X"]⟩ ∧
    CandleScanQuery.Hash ⟨⟨"AAA", 0, 0, []⟩, ⟨1, 1, 1⟩, 3, 4, ["X"]⟩ =
      CandleScanQuery.Hash ⟨⟨"BBB", 7, 9, []⟩, ⟨1, 1, 1⟩, 3, 4, ["X"]⟩ :=
  ⟨scanQuery_hash_props.1 _ _ rfl rfl rfl rfl rfl,
   scanQuery_hash_props.2.1 _ _ rfl rfl rfl rfl rfl⟩
